import Mathlib

/-!
# Verification of the Flask-User token primitive

A shallow embedding of `flask_user/token_manager.py`: the identifier codec
(`encrypt_id` / `decrypt_id`), the signed envelope (itsdangerous'
`TimestampSigner`), and their composition (`generate_token` / `verify_token`).

Python byte/character strings are modelled as `List Nat` of character codes.
Library primitives that the source calls but whose internals live outside the
repository (the AES block cipher from PyCrypto, the HMAC digest inside
itsdangerous) are modelled by deterministic executable functions that keep
exactly the properties the source relies on; every such model is marked in its
doc comment.
-/

set_option autoImplicit false

namespace FlaskUser

/-- ASCII code of the `'.'` separator used by the itsdangerous signer. -/
def sepByte : Nat := 46

/-- ASCII code of the `'='` base-64 padding character. -/
def padByte : Nat := 61

/-- A Python byte string: every element is a byte value. -/
def IsBytes (l : List Nat) : Prop := ∀ x ∈ l, x < 256

instance (l : List Nat) : Decidable (IsBytes l) := List.decidableBAll _ l

/-! ## Decimal digit strings (`'%016d' % id` and `int(...)`) -/

/-- Little-endian base-`b` digits of `n`, driven by explicit fuel
(`fuel ≥ n` suffices for the result to be the full digit list). -/
def radixAux (b : Nat) : Nat → Nat → List Nat
  | 0, _ => []
  | fuel + 1, n => if n = 0 then [] else n % b :: radixAux b fuel (n / b)

/-- The ASCII decimal representation of a natural number, as `'%d' % n`
produces it: `"0"` for zero, otherwise the digits most significant first. -/
def decRepr (n : Nat) : List Nat :=
  if n = 0 then [48] else ((radixAux 10 n n).reverse).map (· + 48)

/-- `'%016d' % id`: the decimal representation zero-padded on the left to at
least 16 characters. -/
def format16 (n : Nat) : List Nat :=
  let s := decRepr n
  List.replicate (16 - s.length) 48 ++ s

/-- `int(bytestring)` restricted to plain digit strings: `some` of the value
when the input is a nonempty string of ASCII digits, `none` otherwise
(in the source the `none` case is a `ValueError` caught by `decrypt_id`). -/
def parseDigits (l : List Nat) : Option Nat :=
  if l ≠ [] ∧ l.all (fun c => 48 ≤ c && c ≤ 57) then
    some (l.foldl (fun a c => a * 10 + (c - 48)) 0)
  else none

/-! ## URL-safe base 64 (`base64.urlsafe_b64encode` / `urlsafe_b64decode`) -/

/-- The URL-safe base-64 alphabet: index `0‥63` to ASCII code. -/
def b64EncChar (n : Nat) : Nat :=
  if n < 26 then 65 + n
  else if n < 52 then 97 + (n - 26)
  else if n < 62 then 48 + (n - 52)
  else if n = 62 then 45
  else 95

/-- Inverse of the URL-safe base-64 alphabet; `none` on a character outside
the alphabet. -/
def b64DecChar (c : Nat) : Option Nat :=
  if 65 ≤ c ∧ c ≤ 90 then some (c - 65)
  else if 97 ≤ c ∧ c ≤ 122 then some (c - 97 + 26)
  else if 48 ≤ c ∧ c ≤ 57 then some (c - 48 + 52)
  else if c = 45 then some 62
  else if c = 95 then some 63
  else none

/-- `base64.urlsafe_b64encode`: three input bytes per four output characters,
the final partial group padded with `'='`. -/
def b64Encode : List Nat → List Nat
  | a :: b :: c :: rest =>
      b64EncChar (a / 4) :: b64EncChar (a % 4 * 16 + b / 16) ::
      b64EncChar (b % 16 * 4 + c / 64) :: b64EncChar (c % 64) :: b64Encode rest
  | [a, b] =>
      [b64EncChar (a / 4), b64EncChar (a % 4 * 16 + b / 16),
       b64EncChar (b % 16 * 4), padByte]
  | [a] =>
      [b64EncChar (a / 4), b64EncChar (a % 4 * 16), padByte, padByte]
  | [] => []

/-- `base64.urlsafe_b64decode` on a padded string: groups of four characters,
`'='` padding allowed only in the final group; `none` on any malformed input
(in the source this error is caught by `decrypt_id`). -/
def b64Decode : List Nat → Option (List Nat)
  | c1 :: c2 :: c3 :: c4 :: rest =>
      if c3 = padByte ∧ c4 = padByte ∧ rest = [] then
        (b64DecChar c1).bind fun v1 => (b64DecChar c2).map fun v2 =>
          [v1 * 4 + v2 / 16]
      else if c4 = padByte ∧ rest = [] then
        (b64DecChar c1).bind fun v1 => (b64DecChar c2).bind fun v2 =>
          (b64DecChar c3).map fun v3 =>
            [v1 * 4 + v2 / 16, v2 % 16 * 16 + v3 / 4]
      else
        (b64DecChar c1).bind fun v1 => (b64DecChar c2).bind fun v2 =>
          (b64DecChar c3).bind fun v3 => (b64DecChar c4).bind fun v4 =>
            (b64Decode rest).map fun bs =>
              (v1 * 4 + v2 / 16) :: (v2 % 16 * 16 + v3 / 4) :: (v3 % 4 * 64 + v4) :: bs
  | [] => some []
  | _ => none

/-- itsdangerous' `base64_encode`: URL-safe base 64 with the trailing `'='`
padding stripped. -/
def b64EncodeNoPad (l : List Nat) : List Nat :=
  ((b64Encode l).reverse.dropWhile (fun c => c = padByte)).reverse

/-- itsdangerous' `base64_decode`: re-append the stripped `'='` padding, then
decode. -/
def b64DecodeNoPad (l : List Nat) : Option (List Nat) :=
  b64Decode (l ++ List.replicate ((4 - l.length % 4) % 4) padByte)

/-! ## The AES cipher (`Crypto.Cipher.AES`, modelled) -/

/-- Model of the AES-128 block encryption used via `AES.new(key)`.  The AES
round structure lives outside the repository; the model keeps the properties
the source relies on: a deterministic, key-indexed, length-preserving
permutation of 16-byte blocks, here byte-wise XOR with the 16-byte key. -/
def aesEncBlock (key block : List Nat) : List Nat :=
  List.zipWith (fun a b => a ^^^ b) key block

/-- Model of the AES-128 block decryption: the inverse permutation of
`aesEncBlock` under the same key. -/
def aesDecBlock (key block : List Nat) : List Nat :=
  List.zipWith (fun a b => a ^^^ b) key block

/-- The single error class PyCrypto raises from ECB `encrypt`/`decrypt`:
`ValueError` when the input length is not a multiple of the block size. -/
inductive PyErr where
  | valueError
  deriving DecidableEq, Repr

/-- Split a byte string into 16-byte blocks (fuel-driven; `fuel ≥ l.length`
suffices). -/
def chunksAux : Nat → List Nat → List (List Nat)
  | 0, _ => []
  | _, [] => []
  | fuel + 1, l => l.take 16 :: chunksAux fuel (l.drop 16)

/-- PyCrypto ECB mode: reject input whose length is not a multiple of 16,
otherwise apply the block operation to each 16-byte block. -/
def ecbApply (f : List Nat → List Nat) (s : List Nat) : Except PyErr (List Nat) :=
  if s.length % 16 = 0 then
    Except.ok ((chunksAux s.length s).map f).flatten
  else Except.error PyErr.valueError

/-! ## The itsdangerous `TimestampSigner` (modelled) -/

/-- Model of the HMAC-SHA1 digest inside itsdangerous' signer.  The hash
internals live outside the repository; the model keeps what the source relies
on: a deterministic keyed digest of 20 bytes. -/
def hmacModel (key msg : List Nat) : List Nat :=
  let h := (key ++ 58 :: msg).foldl (fun a b => (a * 257 + b + 1) % 2 ^ 160) 1
  (List.range 20).map fun i => h / 256 ^ (19 - i) % 256

/-- The signature segment appended by the signer: the base-64 (no padding)
rendering of the keyed digest of the signed bytes. -/
def sigTag (key msg : List Nat) : List Nat :=
  b64EncodeNoPad (hmacModel key msg)

/-- itsdangerous' `int_to_bytes`: minimal big-endian byte rendering of a
natural number. -/
def natToBytesBE (n : Nat) : List Nat :=
  (radixAux 256 n n).reverse

/-- itsdangerous' `bytes_to_int`: big-endian byte string to natural number. -/
def bytesToNatBE (l : List Nat) : Nat :=
  l.foldl (fun a b => a * 256 + b) 0

/-- `TimestampSigner.sign(value)` at clock time `now`:
`value ‖ '.' ‖ base64(timestamp) ‖ '.' ‖ tag(value ‖ '.' ‖ base64(timestamp))`. -/
def signerSign (key value : List Nat) (now : Nat) : List Nat :=
  let v2 := value ++ sepByte :: b64EncodeNoPad (natToBytesBE now)
  v2 ++ sepByte :: sigTag key v2

/-- The two exception classes `verify_token` distinguishes:
`SignatureExpired` and (its superclass) `BadSignature`. -/
inductive SigErr where
  | expired
  | badSig
  deriving DecidableEq, Repr

/-- Split at the LAST occurrence of `sep`, as Python's `rsplit(sep, 1)` does;
`none` when `sep` does not occur. -/
def rsplitLast (sep : Nat) : List Nat → Option (List Nat × List Nat)
  | [] => none
  | a :: rest =>
    match rsplitLast sep rest with
    | some (u, v) => some (a :: u, v)
    | none => if a = sep then some ([], rest) else none

/-- `TimestampSigner.unsign(token, max_age)` at clock time `now`: split off and
check the signature tag, split off and decode the timestamp, then compare the
age against `max_age` (skipped when `max_age` is falsy, i.e. zero); errors
model the `BadSignature` / `SignatureExpired` exceptions. -/
def signerUnsign (key token : List Nat) (now maxAge : Nat) : Except SigErr (List Nat) :=
  match rsplitLast sepByte token with
  | none => Except.error SigErr.badSig
  | some (v2, sig) =>
    if sig = sigTag key v2 then
      match rsplitLast sepByte v2 with
      | none => Except.error SigErr.badSig
      | some (value, tsText) =>
        match b64DecodeNoPad tsText with
        | none => Except.error SigErr.badSig
        | some tsBytes =>
          if maxAge ≠ 0 ∧ (maxAge : Int) < (now : Int) - (bytesToNatBE tsBytes : Int) then
            Except.error SigErr.expired
          else Except.ok value
    else Except.error SigErr.badSig

/-! ## `TokenManager` -/

/-- The fixed filler appended to the secret in `__init__`:
`'0123456789abcdef'`. -/
def fillerBytes : List Nat :=
  [48, 49, 50, 51, 52, 53, 54, 55, 56, 57, 97, 98, 99, 100, 101, 102]

/-- The state a `TokenManager` instance holds: the derived 16-byte cipher key
(`self.cipher`'s key) and the signer secret (`self.signer`'s key). -/
structure TokenManager where
  cipherKey : List Nat
  signerKey : List Nat
  deriving DecidableEq, Repr

/-- `TokenManager.__init__(app_secret)`: derive the cipher key as the first 16
bytes of `app_secret + '0123456789abcdef'` and keep `app_secret` as the signer
key.  The source performs no validation of the secret. -/
def mkTokenManager (appSecret : List Nat) : TokenManager :=
  { cipherKey := (appSecret ++ fillerBytes).take 16
    signerKey := appSecret }

/-- `TokenManager.encrypt_id(id)`: format as `'%016d'`, encrypt with the
cipher, base-64 encode, and drop the final two characters (`str3[0:-2]`). -/
def TokenManager.encrypt_id (tm : TokenManager) (id : Nat) : Except PyErr (List Nat) :=
  (ecbApply (aesEncBlock tm.cipherKey) (format16 id)).map fun str2 =>
    ((b64Encode str2).dropLast).dropLast

/-- The body of the `try:` block of `TokenManager.decrypt_id`: `none` marks
any exception (`encode('ascii')` on a non-ASCII character, base-64 errors,
cipher `ValueError`, `int()` `ValueError`). -/
def TokenManager.decryptIdAux (tm : TokenManager) (encryptedId : List Nat) : Option Nat :=
  if encryptedId.all (fun c => c < 128) then
    (b64Decode (encryptedId ++ [padByte, padByte])).bind fun str2 =>
      ((ecbApply (aesDecBlock tm.cipherKey) str2).toOption).bind fun str1 =>
        parseDigits str1
  else none

/-- `TokenManager.decrypt_id(encrypted_id)`: the decode chain with the bare
`except:` fallback returning `0`. -/
def TokenManager.decrypt_id (tm : TokenManager) (encryptedId : List Nat) : Nat :=
  (tm.decryptIdAux encryptedId).getD 0

/-- `TokenManager.generate_token(user_id)` at clock time `now`:
`signer.sign(encrypt_id(user_id))`; the only failure is the codec's. -/
def TokenManager.generate_token (tm : TokenManager) (userId : Nat) (now : Nat) :
    Except PyErr (List Nat) :=
  (tm.encrypt_id userId).map fun payload => signerSign tm.signerKey payload now

set_option linter.unusedVariables false in
/-- `TokenManager.verify_token(token, max_age)` at clock time `now`: calls
`signer.unsign(token, max_age=1000)` — the literal `1000` from line 54 of the
source, the `max_age` argument being unused — and maps the outcome to the
`(is_valid, has_expired, user_id)` triple. -/
def TokenManager.verify_token (tm : TokenManager) (token : List Nat)
    (now maxAge : Nat) : Bool × Bool × Option Nat :=
  match signerUnsign tm.signerKey token now 1000 with
  | Except.ok data => (true, false, some (tm.decrypt_id data))
  | Except.error SigErr.expired => (false, true, none)
  | Except.error SigErr.badSig => (false, false, none)

/-- A fixed example secret (`"SECRET"`), used to instantiate theorems with
hypotheses at concrete inputs. -/
def secretEx : List Nat := [83, 69, 67, 82, 69, 84]

/-! ## Digit-string lemmas -/

theorem radixAux_foldr (b : Nat) (hb : 2 ≤ b) :
    ∀ fuel n, n ≤ fuel →
      (radixAux b fuel n).foldr (fun d a => d + b * a) 0 = n := by
  intro fuel
  induction fuel with
  | zero => intro n hn; interval_cases n; rfl
  | succ fuel ih =>
    intro n hn
    rcases Nat.eq_zero_or_pos n with h0 | h0
    · subst h0; simp [radixAux]
    · have hne : n ≠ 0 := Nat.pos_iff_ne_zero.mp h0
      have hdiv : n / b ≤ fuel := by
        have : n / b < n := Nat.div_lt_self h0 hb
        omega
      simp only [radixAux, if_neg hne, List.foldr_cons, ih (n / b) hdiv]
      exact Nat.mod_add_div _ _

theorem radixAux_digit_lt (b : Nat) (hb : 0 < b) :
    ∀ fuel n d, d ∈ radixAux b fuel n → d < b := by
  intro fuel
  induction fuel with
  | zero => intro n d hd; simp [radixAux] at hd
  | succ fuel ih =>
    intro n d hd
    by_cases hn : n = 0
    · subst hn; simp [radixAux] at hd
    · simp only [radixAux, if_neg hn, List.mem_cons] at hd
      rcases hd with h | h
      · exact h ▸ Nat.mod_lt _ hb
      · exact ih _ _ h

theorem radixAux_length_le :
    ∀ fuel n k, n ≤ fuel → n < 10 ^ k → (radixAux 10 fuel n).length ≤ k := by
  intro fuel
  induction fuel with
  | zero => intro n k hn _; interval_cases n; simp [radixAux]
  | succ fuel ih =>
    intro n k hn hk
    by_cases hn0 : n = 0
    · subst hn0; simp [radixAux]
    · cases k with
      | zero => omega
      | succ k =>
        have hdiv : n / 10 ≤ fuel := by
          have : n / 10 < n := Nat.div_lt_self (by omega) (by omega)
          omega
        have hklt : n / 10 < 10 ^ k := by
          rw [Nat.div_lt_iff_lt_mul (by omega)]
          calc n < 10 ^ (k + 1) := hk
          _ = 10 ^ k * 10 := by ring
        simp only [radixAux, if_neg hn0, List.length_cons]
        exact Nat.succ_le_succ (ih _ _ hdiv hklt)

theorem decRepr_ne_nil (n : Nat) : decRepr n ≠ [] := by
  by_cases hn : n = 0
  · subst hn; simp [decRepr]
  · obtain ⟨m, rfl⟩ : ∃ m, n = m + 1 := ⟨n - 1, by omega⟩
    simp only [decRepr, if_neg hn]
    simp [radixAux]

theorem decRepr_digits (n : Nat) : ∀ c ∈ decRepr n, 48 ≤ c ∧ c ≤ 57 := by
  intro c hc
  by_cases hn : n = 0
  · subst hn; simp [decRepr] at hc; omega
  · simp only [decRepr, if_neg hn, List.mem_map, List.mem_reverse] at hc
    rcases hc with ⟨d, hd, rfl⟩
    have := radixAux_digit_lt 10 (by omega) n n d hd
    omega

theorem decRepr_length_le (n k : Nat) (h : n < 10 ^ k) (hk : 1 ≤ k) :
    (decRepr n).length ≤ k := by
  by_cases hn : n = 0
  · subst hn; simpa [decRepr] using hk
  · simp only [decRepr, if_neg hn, List.length_map, List.length_reverse]
    exact radixAux_length_le n n k le_rfl h

theorem format16_length (n : Nat) :
    (format16 n).length = max 16 (decRepr n).length := by
  simp only [format16, List.length_append, List.length_replicate]
  omega

theorem format16_digits (n : Nat) : ∀ c ∈ format16 n, 48 ≤ c ∧ c ≤ 57 := by
  intro c hc
  simp only [format16, List.mem_append, List.mem_replicate] at hc
  rcases hc with ⟨_, rfl⟩ | hc
  · omega
  · exact decRepr_digits n c hc

theorem format16_length_of_lt (n : Nat) (h : n < 10 ^ 16) :
    (format16 n).length = 16 := by
  have := decRepr_length_le n 16 h (by omega)
  rw [format16_length]
  omega

theorem foldl_digits_reverse (l : List Nat) :
    ∀ acc : Nat,
      l.reverse.foldl (fun a d => a * 10 + d) acc
        = acc * 10 ^ l.length + l.foldr (fun d a => d + 10 * a) 0 := by
  induction l with
  | nil => intro acc; simp
  | cons d l ih =>
    intro acc
    simp only [List.reverse_cons, List.foldl_append, ih, List.foldl_cons,
      List.foldl_nil, List.foldr_cons, List.length_cons]
    ring

theorem foldl_parse_replicate_zeros (k : Nat) :
    (List.replicate k 48).foldl (fun a c => a * 10 + (c - 48)) 0 = 0 := by
  induction k with
  | zero => rfl
  | succ k ih => simpa [List.replicate_succ] using ih

theorem parseDigits_format16 (n : Nat) : parseDigits (format16 n) = some n := by
  have hall : (format16 n).all (fun c => 48 ≤ c && c ≤ 57) = true := by
    rw [List.all_eq_true]
    intro c hc
    have := format16_digits n c hc
    simp only [Bool.and_eq_true, decide_eq_true_eq]
    omega
  have hne : format16 n ≠ [] := by
    intro h
    have := decRepr_ne_nil n
    simp only [format16] at h
    rcases List.append_eq_nil.mp h with ⟨_, h2⟩
    exact this h2
  rw [parseDigits, if_pos ⟨hne, hall⟩]
  congr 1
  -- the foldl over the zero padding keeps the accumulator at 0
  simp only [format16, List.foldl_append, foldl_parse_replicate_zeros]
  by_cases hn : n = 0
  · subst hn; rfl
  · simp only [decRepr, if_neg hn]
    rw [List.foldl_map, show (fun (a c : Nat) => a * 10 + (c + 48 - 48))
      = (fun a c => a * 10 + c) by funext a c; omega]
    rw [foldl_digits_reverse]
    simp [radixAux_foldr 10 (by omega) n n le_rfl]

/-! ## Base-64 lemmas -/

theorem b64EncChar_lt_128 (n : Nat) : b64EncChar n < 128 := by
  unfold b64EncChar
  split_ifs <;> omega

theorem b64EncChar_ne_pad (n : Nat) : b64EncChar n ≠ padByte := by
  unfold b64EncChar padByte
  split_ifs <;> omega

theorem b64DecChar_encChar : ∀ n < 64, b64DecChar (b64EncChar n) = some n := by
  decide

theorem b64Encode_mem_lt_128 : ∀ l : List Nat, ∀ c ∈ b64Encode l, c < 128
  | [], c, hc => by simp [b64Encode] at hc
  | [a], c, hc => by
    simp only [b64Encode, List.mem_cons, List.not_mem_nil, or_false] at hc
    rcases hc with rfl | rfl | rfl | rfl <;>
      first
      | exact b64EncChar_lt_128 _
      | simp [padByte]
  | [a, b], c, hc => by
    simp only [b64Encode, List.mem_cons, List.not_mem_nil, or_false] at hc
    rcases hc with rfl | rfl | rfl | rfl <;>
      first
      | exact b64EncChar_lt_128 _
      | simp [padByte]
  | a :: b :: d :: rest, c, hc => by
    simp only [b64Encode, List.mem_cons] at hc
    rcases hc with rfl | rfl | rfl | rfl | hc
    · exact b64EncChar_lt_128 _
    · exact b64EncChar_lt_128 _
    · exact b64EncChar_lt_128 _
    · exact b64EncChar_lt_128 _
    · exact b64Encode_mem_lt_128 rest c hc

theorem b64Decode_b64Encode : ∀ l : List Nat, IsBytes l → b64Decode (b64Encode l) = some l
  | [], _ => rfl
  | [a], h => by
    have ha : a < 256 := h a (by simp)
    rw [show b64Encode [a]
        = [b64EncChar (a / 4), b64EncChar (a % 4 * 16), padByte, padByte] from rfl]
    simp only [b64Decode, and_self, and_true, true_and, if_true]
    rw [b64DecChar_encChar _ (by omega), b64DecChar_encChar _ (by omega)]
    simp only [Option.some_bind, Option.map_some', Option.some.injEq,
      List.cons.injEq, and_true]
    omega
  | [a, b], h => by
    have ha : a < 256 := h a (by simp)
    have hb : b < 256 := h b (by simp)
    rw [show b64Encode [a, b]
        = [b64EncChar (a / 4), b64EncChar (a % 4 * 16 + b / 16),
           b64EncChar (b % 16 * 4), padByte] from rfl]
    simp only [b64Decode, and_self, and_true, true_and, if_true]
    rw [if_neg (b64EncChar_ne_pad (b % 16 * 4)), b64DecChar_encChar _ (by omega),
      b64DecChar_encChar _ (by omega), b64DecChar_encChar _ (by omega)]
    simp only [Option.some_bind, Option.map_some', Option.some.injEq,
      List.cons.injEq, and_true]
    omega
  | a :: b :: d :: rest, h => by
    have ha : a < 256 := h a (by simp)
    have hb : b < 256 := h b (by simp)
    have hd : d < 256 := h d (by simp)
    have hrest : IsBytes rest := fun x hx => h x (by simp [hx])
    have ih := b64Decode_b64Encode rest hrest
    rw [show b64Encode (a :: b :: d :: rest)
        = b64EncChar (a / 4) :: b64EncChar (a % 4 * 16 + b / 16) ::
          b64EncChar (b % 16 * 4 + d / 64) :: b64EncChar (d % 64) ::
          b64Encode rest from rfl]
    simp only [b64Decode]
    rw [if_neg (fun hcon => b64EncChar_ne_pad (b % 16 * 4 + d / 64) hcon.1),
      if_neg (fun hcon => b64EncChar_ne_pad (d % 64) hcon.1),
      b64DecChar_encChar _ (by omega), b64DecChar_encChar _ (by omega),
      b64DecChar_encChar _ (by omega), b64DecChar_encChar _ (by omega), ih]
    simp only [Option.some_bind, Option.map_some', Option.some.injEq,
      List.cons.injEq, and_true]
    refine ⟨by omega, by omega, by omega⟩

theorem b64Encode_mod3_one :
    ∀ l : List Nat, l.length % 3 = 1 → ∃ q, b64Encode l = q ++ [padByte, padByte]
  | [], h => by simp at h
  | [a], _ => ⟨[b64EncChar (a / 4), b64EncChar (a % 4 * 16)], rfl⟩
  | [a, b], h => by simp at h
  | a :: b :: d :: rest, h => by
    have hr : rest.length % 3 = 1 := by
      simp only [List.length_cons] at h
      omega
    obtain ⟨q, hq⟩ := b64Encode_mod3_one rest hr
    exact ⟨b64EncChar (a / 4) :: b64EncChar (a % 4 * 16 + b / 16) ::
      b64EncChar (b % 16 * 4 + d / 64) :: b64EncChar (d % 64) :: q,
      by simp [b64Encode, hq]⟩

theorem dropLast_two (q : List Nat) (x y : Nat) :
    ((q ++ [x, y]).dropLast).dropLast = q := by
  rw [show q ++ [x, y] = (q ++ [x]) ++ [y] by simp, List.dropLast_concat,
    List.dropLast_concat]

/-! ## Cipher lemmas -/

theorem zipWith_xor_cancel :
    ∀ (k l : List Nat), l.length ≤ k.length →
      List.zipWith (fun a b => a ^^^ b) k
        (List.zipWith (fun a b => a ^^^ b) k l) = l
  | _, [], _ => by simp
  | [], _ :: _, h => by simp at h
  | a :: k, x :: l, h => by
    simp only [List.zipWith_cons_cons, List.cons.injEq]
    refine ⟨Nat.xor_cancel_left a x, zipWith_xor_cancel k l ?_⟩
    simpa using h

theorem isBytes_zipWith_xor :
    ∀ (k l : List Nat), IsBytes k → IsBytes l →
      IsBytes (List.zipWith (fun a b => a ^^^ b) k l)
  | [], _, _, _ => by intro x hx; simp at hx
  | _ :: _, [], _, _ => by intro x hx; simp at hx
  | a :: k, b :: l, hk, hl => by
    intro x hx
    simp only [List.zipWith_cons_cons, List.mem_cons] at hx
    rcases hx with rfl | hx
    · have ha : a < 256 := hk a (by simp)
      have hb : b < 256 := hl b (by simp)
      have : a ^^^ b < 2 ^ 8 :=
        Nat.xor_lt_two_pow (by norm_num; omega) (by norm_num; omega)
      norm_num at this
      omega
    · exact isBytes_zipWith_xor k l (fun y hy => hk y (by simp [hy]))
        (fun y hy => hl y (by simp [hy])) x hx

theorem chunksAux_singleBlock (l : List Nat) (h : l.length = 16) :
    chunksAux l.length l = [l] := by
  obtain ⟨a, l', rfl⟩ : ∃ a l', l = a :: l' := by
    cases l with
    | nil => simp at h
    | cons a l' => exact ⟨a, l', rfl⟩
  rw [h]
  show chunksAux (15 + 1) (a :: l') = [a :: l']
  simp only [chunksAux]
  rw [List.take_of_length_le (by omega), List.drop_of_length_le (by omega)]
  simp [chunksAux]

theorem ecbApply_single (f : List Nat → List Nat) (l : List Nat)
    (h : l.length = 16) : ecbApply f l = Except.ok (f l) := by
  unfold ecbApply
  rw [if_pos (by omega), chunksAux_singleBlock l h]
  simp

/-! ## Key-derivation lemmas -/

theorem cipherKey_spec (s : List Nat) :
    (mkTokenManager s).cipherKey = (s ++ fillerBytes).take 16 := rfl

theorem cipherKey_length (s : List Nat) :
    (mkTokenManager s).cipherKey.length = 16 := by
  simp only [mkTokenManager, List.length_take, List.length_append]
  simp [fillerBytes]

theorem cipherKey_isBytes (s : List Nat) (hs : IsBytes s) :
    IsBytes (mkTokenManager s).cipherKey := by
  intro x hx
  simp only [mkTokenManager] at hx
  have hx' := List.mem_of_mem_take hx
  rcases List.mem_append.mp hx' with h | h
  · exact hs x h
  · simp only [fillerBytes, List.mem_cons, List.not_mem_nil, or_false] at h
    omega

/-! ## The codec round trip -/

theorem encrypt_decrypt_roundtrip (secret : List Nat) (hs : IsBytes secret)
    (id : Nat) (hid : id < 10 ^ 16) :
    ∃ ct, (mkTokenManager secret).encrypt_id id = Except.ok ct ∧
      (mkTokenManager secret).decrypt_id ct = id := by
  set tm := mkTokenManager secret with htm
  have hkey_len : tm.cipherKey.length = 16 := cipherKey_length secret
  have hkey_bytes : IsBytes tm.cipherKey := cipherKey_isBytes secret hs
  have hfmt_len : (format16 id).length = 16 := format16_length_of_lt id hid
  have hfmt_bytes : IsBytes (format16 id) := fun c hc => by
    have := format16_digits id c hc; omega
  set ct16 := aesEncBlock tm.cipherKey (format16 id) with hct16
  have hct_len : ct16.length = 16 := by
    simp [hct16, aesEncBlock, List.length_zipWith, hkey_len, hfmt_len]
  have hct_bytes : IsBytes ct16 := isBytes_zipWith_xor _ _ hkey_bytes hfmt_bytes
  have henc : tm.encrypt_id id = Except.ok (((b64Encode ct16).dropLast).dropLast) := by
    unfold TokenManager.encrypt_id
    rw [ecbApply_single _ _ hfmt_len]
    rfl
  obtain ⟨q, hq⟩ := b64Encode_mod3_one ct16 (by omega)
  have hdrop : ((b64Encode ct16).dropLast).dropLast = q := by
    rw [hq]; exact dropLast_two q _ _
  refine ⟨q, by rw [henc, hdrop], ?_⟩
  have hascii : q.all (fun c => c < 128) = true := by
    rw [List.all_eq_true]
    intro c hc
    have hmem : c ∈ b64Encode ct16 := by
      rw [hq]; exact List.mem_append_left _ hc
    simpa using b64Encode_mem_lt_128 ct16 c hmem
  have hb64 : b64Decode (q ++ [padByte, padByte]) = some ct16 := by
    rw [← hq]; exact b64Decode_b64Encode ct16 hct_bytes
  have hdec : ecbApply (aesDecBlock tm.cipherKey) ct16 = Except.ok (format16 id) := by
    rw [ecbApply_single _ _ hct_len]
    congr 1
    simp only [aesDecBlock, hct16, aesEncBlock]
    exact zipWith_xor_cancel _ _ (by omega)
  unfold TokenManager.decrypt_id TokenManager.decryptIdAux
  rw [if_pos hascii, hb64]
  simp only [Option.some_bind]
  rw [hdec]
  simp only [Except.toOption, Option.some_bind, parseDigits_format16]
  rfl

/-- A fixed example manager built from the example secret. -/
def tmEx : TokenManager := mkTokenManager secretEx

/-! ## Claims -/

set_option maxRecDepth 8000 in
/-- C1: the spec says a token generated at time T, verified with threshold
`max_age` at time T + max_age + 1, yields (false, true, none).  The code
ignores the `max_age` argument and passes the literal 1000 to the signer, so at
the failing input — secret "SECRET", id 5, token generated at T = 100,
`verify_token(token, max_age=0)` at T + 1 — it returns (true, false, 5)
instead of the (false, true, none) the spec requires. -/
theorem verify_token_hardcoded_age_failing_input :
    tmEx.verify_token ((tmEx.generate_token 5 100).toOption.getD []) 101 0
      = (true, false, some 5) := by
  decide

/-- C2: the result of `verify_token` does not depend on the `max_age`
argument: for any token, clock time and pair of `max_age` values the outcome
triples coincide (the signer is always called with the fixed bound 1000). -/
theorem verify_token_independent_of_max_age (tm : TokenManager)
    (token : List Nat) (now m1 m2 : Nat) :
    tm.verify_token token now m1 = tm.verify_token token now m2 := rfl

/-- C3 counterexample: the payload `"A"` fails to decode (`decryptIdAux` is
`none`), yet a well-signed token around it makes `verify_token` return the
valid outcome (true, false, 0) — not the (false, false, none) the claim
states. -/
theorem verify_token_sentinel_payload_counterexample :
    (mkTokenManager secretEx).decryptIdAux [65] = none ∧
    (mkTokenManager secretEx).verify_token (signerSign secretEx [65] 100) 100 3600
      = (true, false, some 0) ∧
    ((true, false, some 0) : Bool × Bool × Option Nat) ≠ (false, false, none) := by
  refine ⟨by decide, by decide, by decide⟩

/-- C3 (amended): when the envelope check succeeds but the payload fails to
decode, `verify_token` still returns the VALID outcome, with the sentinel 0
reported as the user id: (true, false, 0), not (false, false, none). -/
theorem verify_token_sentinel_payload_amended (tm : TokenManager)
    (token : List Nat) (now ma : Nat) (data : List Nat)
    (hu : signerUnsign tm.signerKey token now 1000 = Except.ok data)
    (hd : tm.decryptIdAux data = none) :
    tm.verify_token token now ma = (true, false, some 0) := by
  unfold TokenManager.verify_token
  rw [hu]
  simp [TokenManager.decrypt_id, hd]

/-- C3 witness: the amended statement evaluated at a concrete signed token
with undecodable payload `"B"`. -/
theorem verify_token_sentinel_payload_amended_witness :
    (mkTokenManager secretEx).verify_token (signerSign secretEx [66] 100) 100 0
      = (true, false, some 0) :=
  verify_token_sentinel_payload_amended (mkTokenManager secretEx)
    (signerSign secretEx [66] 100) 100 0 [66] (by rfl) (by rfl)

/-- C4: the failure sentinel of `decrypt_id` is the integer 0 — every input on
which the decode chain fails yields 0 — and the genuine encoding of subject
id 0 also decrypts to 0, so the sentinel is indistinguishable from the
legitimate identifier 0. -/
theorem decrypt_id_sentinel_collision (secret : List Nat) (hs : IsBytes secret) :
    (∀ s, (mkTokenManager secret).decryptIdAux s = none →
        (mkTokenManager secret).decrypt_id s = 0) ∧
    ∃ ct, (mkTokenManager secret).encrypt_id 0 = Except.ok ct ∧
        (mkTokenManager secret).decrypt_id ct = 0 := by
  refine ⟨fun s h => by simp [TokenManager.decrypt_id, h], ?_⟩
  exact encrypt_decrypt_roundtrip secret hs 0 (by norm_num)

/-- C4 witness: the sentinel collision at the concrete secret "SECRET". -/
theorem decrypt_id_sentinel_collision_witness :
    (∀ s, (mkTokenManager secretEx).decryptIdAux s = none →
        (mkTokenManager secretEx).decrypt_id s = 0) ∧
    ∃ ct, (mkTokenManager secretEx).encrypt_id 0 = Except.ok ct ∧
        (mkTokenManager secretEx).decrypt_id ct = 0 :=
  decrypt_id_sentinel_collision secretEx (by decide)

/-- C5: for every byte-string secret and every id between 0 and 10^16 − 1,
`decrypt_id (encrypt_id id) = id` under the same secret key. -/
theorem encrypt_id_decrypt_id_roundtrip (secret : List Nat) (hs : IsBytes secret)
    (id : Nat) (hid : id ≤ 10 ^ 16 - 1) :
    ∃ ct, (mkTokenManager secret).encrypt_id id = Except.ok ct ∧
      (mkTokenManager secret).decrypt_id ct = id :=
  encrypt_decrypt_roundtrip secret hs id (by omega)

/-- C5 witness: the round trip at secret "SECRET" and id 12345. -/
theorem encrypt_id_decrypt_id_roundtrip_witness :
    ∃ ct, (mkTokenManager secretEx).encrypt_id 12345 = Except.ok ct ∧
      (mkTokenManager secretEx).decrypt_id ct = 12345 :=
  encrypt_id_decrypt_id_roundtrip secretEx (by decide) 12345 (by norm_num)

/-- C6: `verify_token` is total — for every token string, clock time and
`max_age` it returns one of the three defined outcome triples
(true, false, id), (false, true, none) or (false, false, none); no exception
reaches the caller. -/
theorem verify_token_tri_state (tm : TokenManager) (token : List Nat)
    (now ma : Nat) :
    (∃ uid, tm.verify_token token now ma = (true, false, some uid)) ∨
    tm.verify_token token now ma = (false, true, none) ∨
    tm.verify_token token now ma = (false, false, none) := by
  rcases h : signerUnsign tm.signerKey token now 1000 with e | d
  · cases e
    · exact Or.inr (Or.inl (by simp [TokenManager.verify_token, h]))
    · exact Or.inr (Or.inr (by simp [TokenManager.verify_token, h]))
  · exact Or.inl ⟨tm.decrypt_id d, by simp [TokenManager.verify_token, h]⟩

/-- C7: `decrypt_id` is total over arbitrary input strings: either its decode
chain fails and it returns the sentinel 0, or the chain produces an id and it
returns that id — it never raises. -/
theorem decrypt_id_total_fallback (tm : TokenManager) (s : List Nat) :
    (tm.decryptIdAux s = none ∧ tm.decrypt_id s = 0) ∨
    ∃ n, tm.decryptIdAux s = some n ∧ tm.decrypt_id s = n := by
  rcases h : tm.decryptIdAux s with _ | n
  · exact Or.inl ⟨rfl, by simp [TokenManager.decrypt_id, h]⟩
  · exact Or.inr ⟨n, rfl, by simp [TokenManager.decrypt_id, h]⟩

/-- C8 counterexample: id = 10^31 exceeds the 16-digit representable width,
yet `encrypt_id` does not fail (its 32-digit rendering is a multiple of the
cipher block size); and at id = 10^16 the failure is the cipher's
`ValueError`, the code containing no `EncodingError` at all. -/
theorem encrypt_id_wide_id_counterexample :
    10 ^ 16 - 1 < (10 : Nat) ^ 31 ∧
    ((mkTokenManager secretEx).encrypt_id (10 ^ 31)).isOk = true ∧
    (mkTokenManager secretEx).encrypt_id (10 ^ 16)
      = Except.error PyErr.valueError := by
  refine ⟨by norm_num, by decide, by rfl⟩

/-- C8 (amended): `encrypt_id` fails — with the cipher's `ValueError`, there
being no `EncodingError` in the code — exactly when the padded decimal
rendering of the id is longer than 16 digits AND its length is not a multiple
of the 16-byte block size; and a codec failure is the only failure
`generate_token` propagates. -/
theorem encrypt_id_failure_characterisation (tm : TokenManager) (id now : Nat) :
    ((tm.encrypt_id id = Except.error PyErr.valueError) ↔
      (16 < (decRepr id).length ∧ (decRepr id).length % 16 ≠ 0)) ∧
    ((tm.generate_token id now = Except.error PyErr.valueError) ↔
      (tm.encrypt_id id = Except.error PyErr.valueError)) := by
  have hlen := format16_length id
  have henc : tm.encrypt_id id = Except.error PyErr.valueError ↔
      (format16 id).length % 16 ≠ 0 := by
    unfold TokenManager.encrypt_id ecbApply
    split_ifs with hmod
    · simp [Except.map, hmod]
    · simp [Except.map, hmod]
  constructor
  · rw [henc, hlen]
    omega
  · unfold TokenManager.generate_token
    rcases h : tm.encrypt_id id with e | p
    · cases e; simp [Except.map]
    · simp [Except.map]

/-- C9 counterexample: constructing a `TokenManager` from the EMPTY secret
succeeds — no `ConfigError` exists on this path — and yields a fully
functional manager whose cipher key is exactly the public filler. -/
theorem mkTokenManager_empty_secret_counterexample :
    mkTokenManager [] = { cipherKey := fillerBytes, signerKey := [] } ∧
    ((mkTokenManager []).encrypt_id 1).isOk = true := by
  exact ⟨rfl, by decide⟩

/-- C9 (amended): construction never fails — an empty secret is silently
accepted — and for every secret the derived encryption key is exactly the
first 16 bytes of secret ++ filler, hence always exactly 16 bytes. -/
theorem mkTokenManager_key_derivation (s : List Nat) :
    (mkTokenManager s).cipherKey = (s ++ fillerBytes).take 16 ∧
    (mkTokenManager s).cipherKey.length = 16 :=
  ⟨cipherKey_spec s, cipherKey_length s⟩

/-- C10: encoding is deterministic — any two managers constructed from the
same secret produce the identical ciphertext for the same id (the modelled
cipher, like AES-ECB without nonce, is a pure function of key and block). -/
theorem encrypt_id_deterministic (secret : List Nat) (tm1 tm2 : TokenManager)
    (h1 : tm1 = mkTokenManager secret) (h2 : tm2 = mkTokenManager secret)
    (id : Nat) : tm1.encrypt_id id = tm2.encrypt_id id := by
  subst h1; subst h2; rfl

/-- C10 witness: determinism at the concrete secret "SECRET" and id 42. -/
theorem encrypt_id_deterministic_witness :
    (mkTokenManager secretEx).encrypt_id 42
      = (mkTokenManager secretEx).encrypt_id 42 :=
  encrypt_id_deterministic secretEx (mkTokenManager secretEx)
    (mkTokenManager secretEx) rfl rfl 42

end FlaskUser
